import Mathlib

/-!
Shallow embedding of the vector-analytics core of `src/libs/math.js`
(`vectorDistance`, `vectorAngle`, `kMeans`, `kNearestNeighbors`,
`standardDeviation`) and proofs about it.

Modelling conventions, used throughout:

* JavaScript numbers are modelled by exact rationals (`ℚ`), or by an
  arbitrary `LinearOrderedField` where a claim quantifies over real-number
  components.  The IEEE special value `NaN` is modelled by `Option`:
  `none` is `NaN`, `some q` is the finite number `q`.  Every arithmetic
  operation propagates `none` exactly as JavaScript propagates `NaN`.
  Infinities cannot arise on the code paths modelled here (the only
  divisions are `sum / count` with `sum = 0` whenever `count = 0`, and
  `dot / (|a|·|b|)` with `dot = 0` whenever the product of magnitudes is
  `0`); the division models note this where it matters.
* `Math.sqrt` of a nonnegative value is irrational in general, so values
  of the form `√r` are represented by their radicand: `SqrtV.rt r`
  stands for the real number `√r` and `SqrtV.nan` for `NaN`.  On
  nonnegative radicands this representation is exact and injective, and
  `√` is strictly monotone, so comparisons (`Math.min`, `indexOf`,
  `sort`) performed by the source on square roots are performed here on
  the radicands.  Likewise `Math.acos (n / √r)` is represented by the
  pair `(n, r)` (constructor `AcosV.acv`).
* `parseFloat(Number(x).toFixed(2))` rounds to the nearest hundredth,
  ties away from zero toward `+∞` for the exact value (`toFixed2`).
-/

/-- Rounding performed by `parseFloat(Number(x).toFixed(2))` in the k-means
update step: the nearest multiple of `1/100`, ties toward `+∞`. -/
def toFixed2 (q : ℚ) : ℚ := (⌊100 * q + 1 / 2⌋ : ℚ) / 100

/-- The value `√r` (for `r ≥ 0`) represented by its radicand `r`, or `NaN`.
Result representation of `Math.sqrt` / `Math.hypot`. -/
inductive SqrtV (α : Type) where
  | nan : SqrtV α
  | rt (r : α) : SqrtV α
deriving DecidableEq, Repr

/-- The value `n / √r` (for `r > 0`) represented by the pair `(n, r)`,
`±∞`, or `NaN`.  Intermediate representation of the cosine computed by
`vectorAngle`. -/
inductive RatioV (α : Type) where
  | nan : RatioV α
  | pinf : RatioV α
  | ninf : RatioV α
  | rv (n : α) (r : α) : RatioV α
deriving DecidableEq, Repr

/-- The value `acos (n / √r)` (for `r > 0`, `n² ≤ r`) represented by the
pair `(n, r)`, or `NaN`.  Result representation of `vectorAngle`. -/
inductive AcosV (α : Type) where
  | nan : AcosV α
  | acv (n : α) (r : α) : AcosV α
deriving DecidableEq, Repr

/-- `Math.sqrt` on a possibly-`NaN` argument: `NaN` on `NaN` or negative
input, otherwise the root represented by its radicand. -/
def jsSqrt {α : Type} [LinearOrderedField α] : Option α → SqrtV α
  | none => SqrtV.nan
  | some q => if q < 0 then SqrtV.nan else SqrtV.rt q

/-- JavaScript multiplication of the two magnitudes `mA * mB` in
`vectorAngle`.  Both factors are square roots of nonnegative radicands,
and `√x * √y = √(x*y)` there; `NaN` propagates. -/
def sqrtMul {α : Type} [LinearOrderedField α] : SqrtV α → SqrtV α → SqrtV α
  | SqrtV.rt x, SqrtV.rt y => SqrtV.rt (x * y)
  | _, _ => SqrtV.nan

/-- JavaScript division `n / m` of the dot product by the magnitude
product in `vectorAngle`: `NaN / _ = NaN`, division by the zero magnitude
gives `NaN` for `0 / 0` and `±∞` otherwise, and a nonzero divisor `√r`
yields the ratio `n / √r` represented as `rv n r`. -/
def ratioDiv {α : Type} [LinearOrderedField α] : Option α → SqrtV α → RatioV α
  | none, _ => RatioV.nan
  | some _, SqrtV.nan => RatioV.nan
  | some n, SqrtV.rt r =>
      if r = 0 then
        if n = 0 then RatioV.nan
        else if 0 < n then RatioV.pinf else RatioV.ninf
      else RatioV.rv n r

/-- `Math.acos`: `NaN` on `NaN`, on `±∞` and on arguments outside
`[-1, 1]` (for `r > 0`, `|n / √r| ≤ 1 ↔ n² ≤ r`); in range, the angle
represented by the pair. -/
def jsAcos {α : Type} [LinearOrderedField α] : RatioV α → AcosV α
  | RatioV.nan => AcosV.nan
  | RatioV.pinf => AcosV.nan
  | RatioV.ninf => AcosV.nan
  | RatioV.rv n r => if n ^ 2 ≤ r then AcosV.acv n r else AcosV.nan

/-- The fold `vectorA.reduce((acc, val, i) => acc + Math.pow(val - vectorB[i], 2), 0)`
of `vectorDistance`: the sum of squared componentwise differences, walking
the indices of `vectorA`; when `vectorB` is shorter, `vectorB[i]` is
`undefined` and the accumulator becomes (and stays) `NaN`. -/
def sqDiffSum {α : Type} [LinearOrderedField α] : List α → List α → Option α
  | [], _ => some 0
  | _ :: _, [] => none
  | v :: va, w :: vb => Option.map (fun s => (v - w) ^ 2 + s) (sqDiffSum va vb)

/-- The fold `vector.reduce((acc, n) => acc + Math.pow(n, 2), 0)` of
`vectorAngle`: the sum of squared components (no out-of-range access, so
always finite). -/
def sumSq {α : Type} [LinearOrderedField α] (v : List α) : α :=
  v.foldl (fun acc n => acc + n ^ 2) 0

/-- The fold `vectorA.reduce((acc, n, i) => acc + n * vectorB[i], 0)` of
`vectorAngle`: the dot product, walking the indices of `vectorA`; `NaN`
when `vectorB` is shorter. -/
def dotProd {α : Type} [LinearOrderedField α] : List α → List α → Option α
  | [], _ => some 0
  | _ :: _, [] => none
  | v :: va, w :: vb => Option.map (fun s => v * w + s) (dotProd va vb)

/-- `namespace.vectorDistance`: Euclidean distance
`Math.sqrt(vectorA.reduce((acc, val, i) => acc + Math.pow(val - vectorB[i], 2), 0))`. -/
def vectorDistance {α : Type} [LinearOrderedField α] (vectorA vectorB : List α) : SqrtV α :=
  jsSqrt (sqDiffSum vectorA vectorB)

/-- `namespace.vectorAngle`: the angle
`Math.acos(dot / (mA * mB))` with `mA`, `mB` the magnitudes of the two
vectors. -/
def vectorAngle {α : Type} [LinearOrderedField α] (vectorA vectorB : List α) : AcosV α :=
  jsAcos (ratioDiv (dotProd vectorA vectorB)
    (sqrtMul (jsSqrt (some (sumSq vectorA))) (jsSqrt (some (sumSq vectorB)))))

/-- The sum `arr.reduce((acc, val) => acc + val, 0)`. -/
def listSum (arr : List ℚ) : ℚ := arr.foldl (fun acc val => acc + val) 0

/-- JavaScript division of a possibly-`NaN` numerator by the array length:
`x / 0` is reached only with `x = 0` (the sum of an empty array), where it
is `0 / 0 = NaN`. -/
def jsDivByNat (x : Option ℚ) (n : ℕ) : Option ℚ :=
  match x with
  | none => none
  | some q => if n = 0 then none else some (q / n)

/-- JavaScript division of a possibly-`NaN` numerator by the integer
`arr.length - (usePopulation ? 0 : 1)`: the divisor is `0` only when the
numerator is `0` (sum of no squared deviations), where `0 / 0 = NaN`. -/
def jsDivByInt (x : Option ℚ) (d : ℤ) : Option ℚ :=
  match x with
  | none => none
  | some q => if d = 0 then none else some (q / d)

/-- `namespace.standardDeviation`: mean, then squared deviations collected
by `concat` and summed, divided by `arr.length - (usePopulation ? 0 : 1)`,
then `Math.sqrt`.  The mean of an empty array is `0 / 0 = NaN`; the
deviation `(val - mean) ** 2` propagates it. -/
def standardDeviation (arr : List ℚ) (usePopulation : Bool) : SqrtV ℚ :=
  let mean := jsDivByNat (some (listSum arr)) arr.length
  let devs := arr.map (fun val => Option.map (fun m => (val - m) ^ 2) mean)
  let s := devs.foldl (fun acc d => Option.bind acc (fun a => Option.map (fun x => a + x) d)) (some 0)
  jsSqrt (jsDivByInt s ((arr.length : ℤ) - (if usePopulation then 0 else 1)))

/-- The radicand of `Math.hypot(...args)`: the sum of squares of the
arguments, `NaN` (`none`) as soon as any argument is `NaN` (the arguments
here are differences of finite data and possibly-`NaN` centroid
coordinates, so no infinite argument can occur). -/
def hypotRad : List (Option ℚ) → Option ℚ
  | [] => some 0
  | none :: _ => none
  | some x :: rest => Option.map (fun s => x ^ 2 + s) (hypotRad rest)

/-- `Math.min(...l)` on square roots represented by their radicands:
`NaN` if any argument is `NaN`, otherwise the least element (`√` is
monotone, so the minimum of the roots is the root of the minimum
radicand).  The empty case, `Math.min() = Infinity`, is observably equal
to `NaN` here: both make the subsequent `indexOf` return `-1`. -/
def jsMin2 : Option ℚ → Option ℚ → Option ℚ
  | some a, some b => some (min a b)
  | _, _ => none

/-- The fold of `Math.min` over a nonempty argument list. -/
def jsMinAux (x : Option ℚ) : List (Option ℚ) → Option ℚ
  | [] => x
  | y :: rest => jsMin2 x (jsMinAux y rest)

/-- See `jsMinAux`; `Math.min()` of no arguments is `Infinity`, observably
equal to `NaN` here (both make the subsequent `indexOf` return `-1`). -/
def jsMin : List (Option ℚ) → Option ℚ
  | [] => none
  | x :: rest => jsMinAux x rest

/-- The tail of `l.indexOf(v)` for a finite `v`: the index of the first
occurrence, or `-1`. -/
def idxOfAux (q : ℚ) : List (Option ℚ) → ℤ
  | [] => -1
  | x :: rest =>
      if x = some q then 0
      else
        let r := idxOfAux q rest
        if r = -1 then -1 else r + 1

/-- `l.indexOf(v)` under JavaScript strict equality on square roots
represented by their radicands: `NaN` (`none`) equals nothing — also not
itself — so its index is `-1`. -/
def jsIndexOf (l : List (Option ℚ)) (v : Option ℚ) : ℤ :=
  match v with
  | none => -1
  | some q => idxOfAux q l

/-- Read `row[i]` of a centroid: `undefined` out of range behaves as `NaN`
once it enters arithmetic. -/
def centGet (row : List (Option ℚ)) (i : ℕ) : Option ℚ := (row.get? i).getD none

/-- The row `distances[d]`: for each centroid `c`,
`Math.hypot(...Object.keys(data[0]).map(key => data[d][key] - centroids[c][key]))`,
with `dim = data[0].length` the number of keys of `data[0]`. -/
def pointDists (dim : ℕ) (x : List ℚ) (cents : List (List (Option ℚ))) : List (Option ℚ) :=
  cents.map (fun c =>
    hypotRad ((List.range dim).map
      (fun i => Option.map₂ (fun a b => a - b) (x.get? i) (centGet c i))))

/-- The k-means assignment pass: for every point the index
`distances[d].indexOf(Math.min(...distances[d]))` of the nearest centroid
(lowest index on ties, `-1` when some distance is `NaN`). -/
def assignStep (data : List (List ℚ)) (cents : List (List (Option ℚ))) : List ℤ :=
  data.map (fun x =>
    let ds := pointDists (data.headD []).length x cents
    jsIndexOf ds (jsMin ds))

/-- The cluster size accumulated by the `data.reduce` of the update step:
the number of points with `classes[d] === c`. -/
def clusterSize (classes : List ℤ) (c : ℕ) : ℕ :=
  classes.countP (fun x => x = (c : ℤ))

/-- The componentwise sum `centroids[c][i] += data[d][i]` accumulated over
the points assigned to cluster `c` (starting from the fresh zero array). -/
def clusterSum (data : List (List ℚ)) (classes : List ℤ) (c i : ℕ) : Option ℚ :=
  (data.zip classes).foldl
    (fun acc p => if p.2 = (c : ℤ) then Option.map₂ (fun a b => a + b) acc (p.1.get? i) else acc)
    (some 0)

/-- The k-means update pass: each centroid `c` is replaced by a fresh
array and set to
`parseFloat(Number(centroids[c][i] / size).toFixed(2))` componentwise;
an empty cluster divides `0 / 0` and the centroid coordinate becomes
`NaN` (`none`). -/
def updateStep (data : List (List ℚ)) (k : ℕ) (classes : List ℤ) : List (List (Option ℚ)) :=
  (List.range k).map (fun c =>
    (List.range (data.headD []).length).map (fun i =>
      Option.map toFixed2 (jsDivByNat (clusterSum data classes c i) (clusterSize classes c))))

/-- `data.slice(0, k)`: the initial centroids, the first `k` data rows. -/
def initialCentroids (data : List (List ℚ)) (k : ℕ) : List (List (Option ℚ)) :=
  (data.take k).map (fun v => v.map some)

/-- The `while (itr)` loop of `kMeans`, indexed by fuel: one iteration
runs the assignment pass, then the update pass, and stops when no class
changed.  `none` means the fuel was exhausted before the assignment
stabilised (the source would still be looping). -/
def kMeansLoop (data : List (List ℚ)) (k : ℕ) :
    ℕ → List (List (Option ℚ)) → List ℤ → Option (List ℤ × List (List (Option ℚ)))
  | 0, _, _ => none
  | fuel + 1, cents, classes =>
      let classes2 := assignStep data cents
      let cents2 := updateStep data k classes2
      if classes2 = classes then some (classes2, cents2)
      else kMeansLoop data k fuel cents2 classes2

/-- `namespace.kMeans` instrumented to also return the final centroids:
classes start at `-1`, centroids at `data.slice(0, k)`. -/
def kMeansState (data : List (List ℚ)) (k fuel : ℕ) :
    Option (List ℤ × List (List (Option ℚ))) :=
  kMeansLoop data k fuel (initialCentroids data k) (List.replicate data.length (-1))

/-- `namespace.kMeans`: the final `classes` array (given enough fuel for
the loop to stabilise). -/
def kMeans (data : List (List ℚ)) (k fuel : ℕ) : Option (List ℤ) :=
  Option.map (fun s => s.1) (kMeansState data k fuel)

/-- A label as passed to `kNearestNeighbors`: a string, a number, or
`undefined` (an out-of-range read of the labels array). -/
inductive JsLabel where
  | str (s : String) : JsLabel
  | num (q : ℚ) : JsLabel
  | undef : JsLabel
deriving DecidableEq, Repr

/-- A property key of the `classCounts` object.  JavaScript coerces every
key to a string; keys are modelled as tagged values instead (`ofNum q`
stands for the decimal string of `q`), which is faithful whenever the
labels do not mix a string label with a number label that stringifies to
it — stringification is injective on each tag. -/
inductive JsKey where
  | ofStr (s : String) : JsKey
  | ofNum (q : ℚ) : JsKey
deriving DecidableEq, Repr

/-- The property key a label turns into when used as `classCounts[label]`. -/
def labelKey : JsLabel → JsKey
  | JsLabel.str s => JsKey.ofStr s
  | JsLabel.num q => JsKey.ofNum q
  | JsLabel.undef => JsKey.ofStr "undefined"

/-- `Object.keys(classCounts).indexOf(label) !== -1`: `Object.keys`
returns strings and `indexOf` compares them to the label with strict
equality, so a non-string label never matches any key. -/
def containsStrict (counts : List (JsKey × ℕ)) (l : JsLabel) : Bool :=
  match l with
  | JsLabel.str s => (counts.map (fun p => p.1)).contains (JsKey.ofStr s)
  | _ => false

/-- The property write `classCounts[key] = v`: replace the binding if the
key is present, otherwise add it. -/
def setKey (counts : List (JsKey × ℕ)) (key : JsKey) (v : ℕ) : List (JsKey × ℕ) :=
  if (counts.map (fun p => p.1)).contains key then
    counts.map (fun p => if p.1 = key then (key, v) else p)
  else counts ++ [(key, v)]

/-- The accumulator of the `kNearest.reduce` fold:
`{ classCounts, topClass, topClassCount }`. -/
structure KNNAcc where
  classCounts : List (JsKey × ℕ)
  topClass : JsLabel
  topClassCount : ℕ
deriving DecidableEq, Repr

/-- One step of the `kNearest.reduce` fold: bump (or reset to 1, when the
strict-equality key test fails) the label's count, then promote the label
to `topClass` when its count strictly exceeds `topClassCount`. -/
def tallyStep (acc : KNNAcc) (label : JsLabel) : KNNAcc :=
  let newCount :=
    if containsStrict acc.classCounts label then
      ((acc.classCounts.lookup (labelKey label)).getD 0) + 1
    else 1
  let counts2 := setKey acc.classCounts (labelKey label) newCount
  if acc.topClassCount < newCount then
    { classCounts := counts2, topClass := label, topClassCount := newCount }
  else
    { acc with classCounts := counts2 }

/-- The differences `point[key] - el[key]` over the keys of a training
vector `el`; a key beyond `point`'s length reads `undefined` and the
difference is `NaN`. -/
def ptDiffs : List ℚ → List ℚ → List (Option ℚ)
  | _, [] => []
  | [], _ :: el => none :: ptDiffs [] el
  | v :: pt, w :: el => some (v - w) :: ptDiffs pt el

/-- The `data.map((el, i) => ({ dist, label }))` stage of
`kNearestNeighbors`, walking `data` and `labels` together: the distance
radicand of `Math.hypot(...Object.keys(el).map(key => point[key] - el[key]))`
paired with `labels[i]` (`undefined` when the labels run short). -/
def neighborAux (point : List ℚ) : List (List ℚ) → List JsLabel → List (Option ℚ × JsLabel)
  | [], _ => []
  | el :: ds, [] => (hypotRad (ptDiffs point el), JsLabel.undef) :: neighborAux point ds []
  | el :: ds, l :: ls => (hypotRad (ptDiffs point el), l) :: neighborAux point ds ls

/-- The `{dist, label}` pairs in `data` order. -/
def neighborPairs (data : List (List ℚ)) (labels : List JsLabel) (point : List ℚ) :
    List (Option ℚ × JsLabel) :=
  neighborAux point data labels

/-- The comparator `(a, b) => a.dist - b.dist` as a `≤` test on distances
represented by their radicands (ascending; `√` is monotone).  Branches
involving `NaN` cannot make the comparator return a positive number, so
they sort as "not greater". -/
def distLe : Option ℚ → Option ℚ → Bool
  | some a, some b => a ≤ b
  | _, _ => true

/-- Insert a pair after every already-placed pair with a distance `≤` its
own: the insertion step of a stable ascending sort. -/
def insertPair (p : Option ℚ × JsLabel) : List (Option ℚ × JsLabel) → List (Option ℚ × JsLabel)
  | [] => [p]
  | q :: rest => if distLe q.1 p.1 then q :: insertPair p rest else p :: q :: rest

/-- The `.sort((a, b) => a.dist - b.dist)` stage: a stable ascending sort
by distance.  ECMAScript sorts are stable, and the stable ascending order
is unique, so this insertion sort (which keeps earlier elements before
later equal-distance ones) computes exactly the source's order. -/
def sortedPairs (data : List (List ℚ)) (labels : List JsLabel) (point : List ℚ) :
    List (Option ℚ × JsLabel) :=
  (neighborPairs data labels point).foldl (fun acc p => insertPair p acc) []

/-- The `.slice(0, k)` stage: the `k` nearest labelled points. -/
def kNearest (data : List (List ℚ)) (labels : List JsLabel) (point : List ℚ) (k : ℕ) :
    List (Option ℚ × JsLabel) :=
  (sortedPairs data labels point).take k

/-- The labels of the `k` nearest points, in distance-sorted order. -/
def takenLabels (data : List (List ℚ)) (labels : List JsLabel) (point : List ℚ) (k : ℕ) :
    List JsLabel :=
  (kNearest data labels point k).map (fun p => p.2)

/-- `namespace.kNearestNeighbors`: fold `tallyStep` over the `k` nearest
pairs starting from `{ classCounts: {}, topClass: kNearest[0].label,
topClassCount: 0 }` and return `topClass`.  `none` models the `TypeError`
thrown by `kNearest[0].label` on an empty training set. -/
def kNearestNeighbors (data : List (List ℚ)) (labels : List JsLabel) (point : List ℚ)
    (k : ℕ) : Option JsLabel :=
  match kNearest data labels point k with
  | [] => none
  | first :: rest =>
      some (((first :: rest).foldl (fun acc p => tallyStep acc p.2)
        { classCounts := [], topClass := first.2, topClassCount := 0 }).topClass)

/-- Modelled from the spec: the highest tally among the given labels
("tally label occurrences among them; return the label with the highest
tally"). -/
def specMaxCount (l : List JsLabel) : ℕ :=
  (l.map (fun x => l.count x)).foldr max 0

/-- Modelled from the spec: the running scan underlying
`specFirstToReach`.  `seen` is the already-scanned prefix in
distance-sorted order; the first position whose label's occurrence count
within the scanned prefix (this position included) reaches `m` wins. -/
def firstReachAux (m : ℕ) : List JsLabel → List JsLabel → Option JsLabel
  | _, [] => none
  | seen, x :: rest =>
      if (seen ++ [x]).count x = m then some x else firstReachAux m (seen ++ [x]) rest

/-- Modelled from the spec: "the first label (in distance-sorted order) to
reach the current maximum tally wins" — scanning positions in order, the
label whose running occurrence count is the first to reach `m`. -/
def specFirstToReach (l : List JsLabel) (m : ℕ) : Option JsLabel :=
  firstReachAux m [] l

/-- Modelled from the spec: the majority vote over the `k` nearest labels
with the first-to-reach-the-maximum tie-break. -/
def specVote (l : List JsLabel) : Option JsLabel :=
  specFirstToReach l (specMaxCount l)

/-- A JavaScript heap of numeric arrays, used to check `kMeans` for side
effects on its arguments: cell `(a, i)` is element `i` of the array at
address `a`.  The `data` rows live at addresses `0, …, n-1`. -/
abbrev Store := List (List (Option ℚ))

/-- Read `heap[a][i]` (`undefined` out of range, which behaves as `NaN`
once it enters arithmetic). -/
def readCell (st : Store) (a i : ℕ) : Option ℚ :=
  (((st.get? a).getD []).get? i).getD none

/-- Write `heap[a][i] = v`. -/
def writeCell (st : Store) (a i : ℕ) (v : Option ℚ) : Store :=
  st.set a (((st.get? a).getD []).set i v)

/-- The assignment pass of `kMeans`, reading points and centroids through
the heap (`cents` holds the addresses of the centroid arrays — initially
the addresses of the first `k` data rows, since `slice` copies
references). -/
def hAssign (st : Store) (dim n : ℕ) (cents : List ℕ) : List ℤ :=
  (List.range n).map (fun d =>
    let ds := cents.map (fun a =>
      hypotRad ((List.range dim).map
        (fun i => Option.map₂ (fun x y => x - y) (readCell st d i) (readCell st a i))))
    jsIndexOf ds (jsMin ds))

/-- The update pass of `kMeans` on the heap.  For each cluster `c` (in
order): allocate a fresh zero array (`centroids[c] = Array.from(...)`) and
point `cents[c]` at it, accumulate `centroids[c][i] += data[d][i]` over
the points of the cluster, then overwrite each coordinate with the rounded
mean.  Every write targets the freshly allocated address. -/
def hUpdate (st : Store) (cents : List ℕ) (classes : List ℤ) (dim n k : ℕ) :
    Store × List ℕ :=
  (List.range k).foldl (fun (p : Store × List ℕ) c =>
    let a := p.1.length
    let st1 := p.1 ++ [List.replicate dim (some 0)]
    let cents1 := p.2.set c a
    let st2 := (List.range n).foldl (fun st d =>
      if classes.getD d (-1) = (c : ℤ) then
        (List.range dim).foldl (fun st i =>
          writeCell st a i (Option.map₂ (fun x y => x + y) (readCell st a i) (readCell st d i))) st
      else st) st1
    let size := clusterSize classes c
    let st3 := (List.range dim).foldl (fun st i =>
      writeCell st a i (Option.map toFixed2 (jsDivByNat (readCell st a i) size))) st2
    (st3, cents1)) (st, cents)

/-- The `while (itr)` loop of `kMeans` on the heap; when the fuel runs out
the current heap is reported (final `Bool` is `false`). -/
def kMeansHeapLoop (dim n k : ℕ) :
    ℕ → Store → List ℕ → List ℤ → Store × List ℕ × List ℤ × Bool
  | 0, st, cents, classes => (st, cents, classes, false)
  | fuel + 1, st, cents, classes =>
      let classes2 := hAssign st dim n cents
      let p := hUpdate st cents classes2 dim n k
      if classes2 = classes then (p.1, p.2, classes2, true)
      else kMeansHeapLoop dim n k fuel p.1 p.2 classes2

/-- `namespace.kMeans` run on a heap holding the data rows at addresses
`0, …, n-1`: centroid addresses start as `data.slice(0, k)` (aliases of
the data rows), classes at `-1`. -/
def kMeansHeap (data : List (List ℚ)) (k fuel : ℕ) : Store × List ℕ × List ℤ × Bool :=
  kMeansHeapLoop (data.headD []).length data.length k fuel
    (data.map (fun v => v.map some)) ((List.range data.length).take k)
    (List.replicate data.length (-1))

/-- `namespace.kNearestNeighbors` run against a heap holding its array
arguments: the source reads `data`, `labels` and `point` but its only
assignments target the freshly created `{dist, label}` objects and the
`reduce` accumulator, so the heap is threaded through unchanged and the
result is the pure value. -/
def kNearestNeighborsHeap (st : Store) (data : List (List ℚ)) (labels : List JsLabel)
    (point : List ℚ) (k : ℕ) : Option JsLabel × Store :=
  (kNearestNeighbors data labels point k, st)

/-- The frame invariant of the heap model: the store still starts with the
untouched data rows. -/
def StorePure (data : List (List ℚ)) (s : Store) : Prop :=
  data.length ≤ s.length ∧ s.take data.length = data.map (fun v => v.map some)

theorem kMeansLoop_succ (data : List (List ℚ)) (k fuel : ℕ)
    (cents : List (List (Option ℚ))) (classes : List ℤ) :
    kMeansLoop data k (fuel + 1) cents classes =
      if assignStep data cents = classes
      then some (assignStep data cents, updateStep data k (assignStep data cents))
      else kMeansLoop data k fuel (updateStep data k (assignStep data cents))
        (assignStep data cents) := rfl

theorem kMeansLoop_mono {data : List (List ℚ)} {k : ℕ} :
    ∀ {fuel fuel' : ℕ} {cents : List (List (Option ℚ))} {classes : List ℤ}
      {r : List ℤ × List (List (Option ℚ))},
      fuel ≤ fuel' → kMeansLoop data k fuel cents classes = some r →
      kMeansLoop data k fuel' cents classes = some r := by
  intro fuel
  induction fuel with
  | zero => intro fuel' cents classes r _ h; simp [kMeansLoop] at h
  | succ n ih =>
      intro fuel' cents classes r hle h
      obtain ⟨m, rfl⟩ : ∃ m, fuel' = m + 1 := ⟨fuel' - 1, by omega⟩
      rw [kMeansLoop_succ] at h ⊢
      by_cases hc : assignStep data cents = classes
      · rw [if_pos hc] at h ⊢; exact h
      · rw [if_neg hc] at h ⊢
        exact ih (by omega) h

theorem kMeansState_mono {data : List (List ℚ)} {k fuel fuel' : ℕ}
    {r : List ℤ × List (List (Option ℚ))} (hle : fuel ≤ fuel')
    (h : kMeansState data k fuel = some r) : kMeansState data k fuel' = some r :=
  kMeansLoop_mono hle h

/-- C6: `cluster([[0,0],[0,1],[1,3],[2,0]], k=2)` returns `[0, 1, 1, 0]`
(centroids seeded from the first two vectors, nearest-centroid assignment
with lowest-index tie-break, repeated until no assignment changes). -/
theorem kMeans_concrete_cluster (fuel : ℕ) (hfuel : 2 ≤ fuel) :
    kMeans [[0, 0], [0, 1], [1, 3], [2, 0]] 2 fuel = some [0, 1, 1, 0] := by
  have hs : kMeansState [[0, 0], [0, 1], [1, 3], [2, 0]] 2 2
      = some ([0, 1, 1, 0], [[some 1, some 0], [some (1/2), some 2]]) := by
    norm_num [kMeansState, kMeansLoop, assignStep, updateStep, initialCentroids,
      pointDists, hypotRad, jsMin, jsMinAux, jsMin2, jsIndexOf, idxOfAux, centGet, clusterSum,
      clusterSize, jsDivByNat, toFixed2, Option.map₂, List.range_succ, min_def]
  rw [kMeans, kMeansState_mono hfuel hs]
  rfl

theorem kMeans_concrete_cluster_witness :
    2 ≤ 2 ∧ kMeans [[0, 0], [0, 1], [1, 3], [2, 0]] 2 2 = some [0, 1, 1, 0] :=
  ⟨le_refl 2, kMeans_concrete_cluster 2 (le_refl 2)⟩

/-- C3: on `[[0,0],[0,0]]` with `k = 2` cluster 1 is empty after the first
assignment; the update step divides `0 / 0` and sets centroid 1 to
`[NaN, NaN]` (`[none, none]`), the next assignment gives every point class
`-1`, and `kMeans` returns `[-1, -1]` — it neither fails with a
`DegenerateCluster` error nor re-seeds the centroid. -/
theorem kMeans_empty_cluster_nan :
    updateStep [[0, 0], [0, 0]] 2 [0, 0] = [[some 0, some 0], [none, none]] ∧
    kMeans [[0, 0], [0, 0]] 2 3 = some [-1, -1] := by
  constructor
  · norm_num [updateStep, clusterSum, clusterSize, jsDivByNat, toFixed2, Option.map₂,
      List.range_succ]
  · norm_num [kMeans, kMeansState, kMeansLoop, assignStep, updateStep, initialCentroids,
      pointDists, hypotRad, jsMin, jsMinAux, jsMin2, jsIndexOf, idxOfAux, centGet, clusterSum,
      clusterSize, jsDivByNat, toFixed2, Option.map₂, List.range_succ, min_def, List.replicate]

/-- C4, counterexample: `standardDeviation([])` and
`standardDeviation([x], usePopulation=false)` return `NaN` — there is no
`InsufficientData` failure. -/
theorem standardDeviation_returns_nan :
    standardDeviation [] true = SqrtV.nan ∧ standardDeviation [1] false = SqrtV.nan := by
  constructor <;> norm_num [standardDeviation, jsSqrt, jsDivByInt, jsDivByNat, listSum]

/-- C4, amended: `standardDeviation` returns `NaN` (`SqrtV.nan`), not an
`InsufficientData` error, on `[]` with `usePopulation = true` and on a
one-element array with `usePopulation = false`; it returns `0` (`√0`) on
`[]` with `usePopulation = false` (`0 / -1 = -0` in the source) and on a
one-element array with `usePopulation = true`. -/
theorem standardDeviation_small_inputs (x : ℚ) :
    standardDeviation [] true = SqrtV.nan ∧
    standardDeviation [] false = SqrtV.rt 0 ∧
    standardDeviation [x] false = SqrtV.nan ∧
    standardDeviation [x] true = SqrtV.rt 0 := by
  norm_num [standardDeviation, jsSqrt, jsDivByInt, jsDivByNat, listSum]

/-- C5, counterexample: on the zero-magnitude vector `[0, 0]` the angle is
`NaN` — there is no `DegenerateVector` failure. -/
theorem vectorAngle_zero_vector_nan :
    vectorAngle ([0, 0] : List ℚ) [1, 0] = AcosV.nan := by
  norm_num [vectorAngle, jsAcos, ratioDiv, sqrtMul, jsSqrt, dotProd, sumSq]

/-- C1, counterexample: with numeric labels `[5, 7, 7]` and the query `[0]`
at `k = 3`, the three neighbours (in distance order) carry labels
`5, 7, 7`, so `7` has the highest occurrence count — but the source
returns `5`, the nearest label, because the numeric-label tally is reset
to `1` at every occurrence. -/
theorem kNearestNeighbors_not_majority :
    kNearestNeighbors [[0], [1], [2]] [JsLabel.num 5, JsLabel.num 7, JsLabel.num 7] [0] 3
      = some (JsLabel.num 5) ∧
    takenLabels [[0], [1], [2]] [JsLabel.num 5, JsLabel.num 7, JsLabel.num 7] [0] 3
      = [JsLabel.num 5, JsLabel.num 7, JsLabel.num 7] ∧
    ([JsLabel.num 5, JsLabel.num 7, JsLabel.num 7].count (JsLabel.num 7) = 2 ∧
     [JsLabel.num 5, JsLabel.num 7, JsLabel.num 7].count (JsLabel.num 5) = 1) ∧
    JsLabel.num 5 ≠ JsLabel.num 7 := by
  refine ⟨?_, ?_, ⟨?_, ?_⟩, ?_⟩
  · norm_num [kNearestNeighbors, kNearest, sortedPairs, neighborPairs, neighborAux, ptDiffs,
      hypotRad, insertPair, distLe, tallyStep, containsStrict, setKey, labelKey, List.lookup]
  · norm_num [takenLabels, kNearest, sortedPairs, neighborPairs, neighborAux, ptDiffs,
      hypotRad, insertPair, distLe]
  · norm_num [List.count_cons]
  · norm_num [List.count_cons]
  · norm_num

theorem sqDiffSum_comm {α : Type} [LinearOrderedField α] :
    ∀ (a b : List α), a.length = b.length → sqDiffSum a b = sqDiffSum b a := by
  intro a
  induction a with
  | nil =>
      intro b h
      cases b with
      | nil => rfl
      | cons w vb => simp at h
  | cons v va ih =>
      intro b h
      cases b with
      | nil => simp at h
      | cons w vb =>
          have hsq : (v - w) ^ 2 = (w - v) ^ 2 := by ring
          rw [sqDiffSum, sqDiffSum, ih vb (by simpa using h), hsq]

/-- C8: the Euclidean distance of `vectorDistance` is symmetric on
equal-length vectors over any linear ordered field (in particular over the
reals): the summed squared differences agree termwise. -/
theorem vectorDistance_symm {α : Type} [LinearOrderedField α] (a b : List α)
    (h : a.length = b.length) : vectorDistance a b = vectorDistance b a := by
  rw [vectorDistance, vectorDistance, sqDiffSum_comm a b h]

theorem vectorDistance_symm_witness :
    vectorDistance ([10, 0, 5] : List ℚ) [20, 0, 10] = vectorDistance [20, 0, 10] [10, 0, 5] :=
  vectorDistance_symm [10, 0, 5] [20, 0, 10] (by simp)

theorem neighborAux_length (point : List ℚ) :
    ∀ (data : List (List ℚ)) (labels : List JsLabel),
      (neighborAux point data labels).length = data.length := by
  intro data
  induction data with
  | nil => intro labels; rfl
  | cons el ds ih =>
      intro labels
      cases labels with
      | nil => simp [neighborAux, ih]
      | cons l ls => simp [neighborAux, ih]

theorem insertPair_length (p : Option ℚ × JsLabel) :
    ∀ (l : List (Option ℚ × JsLabel)), (insertPair p l).length = l.length + 1 := by
  intro l
  induction l with
  | nil => rfl
  | cons q rest ih =>
      rw [insertPair]
      by_cases hc : distLe q.1 p.1 = true
      · rw [if_pos hc]; simp [ih]
      · rw [if_neg hc]; simp

theorem sortedInsert_length :
    ∀ (l acc : List (Option ℚ × JsLabel)),
      (l.foldl (fun acc p => insertPair p acc) acc).length = acc.length + l.length := by
  intro l
  induction l with
  | nil => intro acc; simp
  | cons p rest ih =>
      intro acc
      simp only [List.foldl_cons]
      rw [ih, insertPair_length]
      simp only [List.length_cons]
      omega

theorem sortedPairs_length (data : List (List ℚ)) (labels : List JsLabel) (point : List ℚ) :
    (sortedPairs data labels point).length = data.length := by
  rw [sortedPairs, sortedInsert_length, neighborPairs, neighborAux_length]
  simp

theorem insertPair_mem {x p : Option ℚ × JsLabel} :
    ∀ {l : List (Option ℚ × JsLabel)}, x ∈ insertPair p l → x = p ∨ x ∈ l := by
  intro l
  induction l with
  | nil => intro h; simp [insertPair] at h; exact Or.inl h
  | cons q rest ih =>
      intro h
      rw [insertPair] at h
      by_cases hc : distLe q.1 p.1 = true
      · rw [if_pos hc] at h
        rcases List.mem_cons.mp h with h1 | h2
        · exact Or.inr (List.mem_cons.mpr (Or.inl h1))
        · rcases ih h2 with h3 | h4
          · exact Or.inl h3
          · exact Or.inr (List.mem_cons.mpr (Or.inr h4))
      · rw [if_neg hc] at h
        rcases List.mem_cons.mp h with h1 | h2
        · exact Or.inl h1
        · exact Or.inr h2

theorem sortedInsert_mem {x : Option ℚ × JsLabel} :
    ∀ {l acc : List (Option ℚ × JsLabel)},
      x ∈ l.foldl (fun acc p => insertPair p acc) acc → x ∈ acc ∨ x ∈ l := by
  intro l
  induction l with
  | nil => intro acc h; exact Or.inl h
  | cons p rest ih =>
      intro acc h
      simp only [List.foldl_cons] at h
      rcases ih h with h1 | h2
      · rcases insertPair_mem h1 with h3 | h4
        · exact Or.inr (List.mem_cons.mpr (Or.inl h3))
        · exact Or.inl h4
      · exact Or.inr (List.mem_cons.mpr (Or.inr h2))

theorem neighborAux_label_mem {pr : Option ℚ × JsLabel} (point : List ℚ) :
    ∀ (data : List (List ℚ)) (labels : List JsLabel),
      labels.length = data.length → pr ∈ neighborAux point data labels → pr.2 ∈ labels := by
  intro data
  induction data with
  | nil => intro labels _ h; simp [neighborAux] at h
  | cons el ds ih =>
      intro labels hlen h
      cases labels with
      | nil => simp at hlen
      | cons l ls =>
          rw [neighborAux] at h
          rcases List.mem_cons.mp h with h1 | h2
          · rw [h1]; exact List.mem_cons.mpr (Or.inl rfl)
          · exact List.mem_cons.mpr (Or.inr (ih ls (by simpa using hlen) h2))

theorem sortedPairs_label_mem {pr : Option ℚ × JsLabel} {data : List (List ℚ)}
    {labels : List JsLabel} {point : List ℚ} (hlen : labels.length = data.length)
    (h : pr ∈ sortedPairs data labels point) : pr.2 ∈ labels := by
  rcases sortedInsert_mem h with h1 | h2
  · simp at h1
  · exact neighborAux_label_mem point data labels hlen h2

theorem containsStrict_num (counts : List (JsKey × ℕ)) (q : ℚ) :
    containsStrict counts (JsLabel.num q) = false := rfl

theorem tallyStep_num_of_pos {acc : KNNAcc} (q : ℚ) (h1 : 1 ≤ acc.topClassCount) :
    (tallyStep acc (JsLabel.num q)).topClass = acc.topClass ∧
    (tallyStep acc (JsLabel.num q)).topClassCount = acc.topClassCount := by
  rw [tallyStep]
  simp only [containsStrict_num, Bool.false_eq_true, if_false]
  rw [if_neg (by omega)]
  exact ⟨rfl, rfl⟩

theorem tally_fold_num :
    ∀ (l : List (Option ℚ × JsLabel)) (acc : KNNAcc),
      (∀ pr ∈ l, ∃ q, pr.2 = JsLabel.num q) → 1 ≤ acc.topClassCount →
      ((l.foldl (fun acc p => tallyStep acc p.2) acc).topClass = acc.topClass ∧
       (l.foldl (fun acc p => tallyStep acc p.2) acc).topClassCount = acc.topClassCount) := by
  intro l
  induction l with
  | nil => intro acc _ _; exact ⟨rfl, rfl⟩
  | cons p rest ih =>
      intro acc hnum h1
      obtain ⟨q, hq⟩ := hnum p (List.mem_cons.mpr (Or.inl rfl))
      simp only [List.foldl_cons, hq]
      have hstep := tallyStep_num_of_pos q h1
      have hrec := ih (tallyStep acc (JsLabel.num q))
        (fun pr hpr => hnum pr (List.mem_cons.mpr (Or.inr hpr)))
        (by rw [hstep.2]; exact h1)
      rw [hrec.1, hrec.2, hstep.1, hstep.2]
      exact ⟨rfl, rfl⟩

theorem containsStrict_nil (l : JsLabel) : containsStrict [] l = false := by
  cases l <;> rfl

theorem tallyStep_first (t lab : JsLabel) :
    tallyStep { classCounts := [], topClass := t, topClassCount := 0 } lab
      = { classCounts := setKey [] (labelKey lab) 1, topClass := lab, topClassCount := 1 } := by
  rw [tallyStep]
  simp [containsStrict_nil]

/-- C10: with numeric labels, the strict-equality key test
`Object.keys(classCounts).indexOf(label) !== -1` always fails (keys are
strings), each label's tally is reset to `1` at every occurrence, and so
`kNearestNeighbors` returns the label of the first element of the
distance-sorted neighbour list — the nearest training point — for every
`k ≥ 1`, independently of `k`. -/
theorem kNearestNeighbors_numeric_nearest (data : List (List ℚ)) (labels : List JsLabel)
    (point : List ℚ) (k : ℕ) (hne : data ≠ []) (hlen : labels.length = data.length)
    (hdim : ∀ v ∈ data, v.length = point.length)
    (hnum : ∀ l ∈ labels, ∃ q, l = JsLabel.num q) (hk : 1 ≤ k) :
    kNearestNeighbors data labels point k
      = (sortedPairs data labels point).head?.map (fun p => p.2) := by
  obtain ⟨p, rest, hsp⟩ : ∃ p rest, sortedPairs data labels point = p :: rest := by
    rcases hl : sortedPairs data labels point with _ | ⟨p, rest⟩
    · exfalso
      have hlth := sortedPairs_length data labels point
      rw [hl] at hlth
      simp only [List.length_nil] at hlth
      exact hne (List.length_eq_zero.mp hlth.symm)
    · exact ⟨p, rest, rfl⟩
  obtain ⟨k2, rfl⟩ : ∃ k2, k = k2 + 1 := ⟨k - 1, by omega⟩
  have hkn : kNearest data labels point (k2 + 1) = p :: rest.take k2 := by
    rw [kNearest, hsp, List.take_succ_cons]
  have hnum2 : ∀ pr ∈ rest.take k2, ∃ q, pr.2 = JsLabel.num q := by
    intro pr hpr
    have hmem : pr ∈ sortedPairs data labels point := by
      rw [hsp]
      exact List.mem_cons.mpr (Or.inr (List.take_subset k2 rest hpr))
    exact hnum pr.2 (sortedPairs_label_mem hlen hmem)
  have hpnum : ∃ q, p.2 = JsLabel.num q := by
    have hmem : p ∈ sortedPairs data labels point := by
      rw [hsp]; exact List.mem_cons.mpr (Or.inl rfl)
    exact hnum p.2 (sortedPairs_label_mem hlen hmem)
  simp only [kNearestNeighbors, hkn]
  rw [List.foldl_cons, tallyStep_first]
  have hfold := tally_fold_num (rest.take k2)
    { classCounts := setKey [] (labelKey p.2) 1, topClass := p.2, topClassCount := 1 }
    hnum2 (le_refl 1)
  rw [hfold.1, hsp]
  rfl

theorem kNearestNeighbors_numeric_nearest_witness :
    kNearestNeighbors [[0], [1]] [JsLabel.num 3, JsLabel.num 4] [0] 2
      = (sortedPairs [[0], [1]] [JsLabel.num 3, JsLabel.num 4] [0]).head?.map (fun p => p.2) :=
  kNearestNeighbors_numeric_nearest [[0], [1]] [JsLabel.num 3, JsLabel.num 4] [0] 2
    (by simp) (by simp)
    (by intro v hv; rcases List.mem_cons.mp hv with h1 | h2
        · simp [h1]
        · rcases List.mem_cons.mp h2 with h3 | h4
          · simp [h3]
          · simp at h4)
    (by intro l hl; rcases List.mem_cons.mp hl with h1 | h2
        · exact ⟨3, h1⟩
        · rcases List.mem_cons.mp h2 with h3 | h4
          · exact ⟨4, h3⟩
          · simp at h4)
    (by omega)

theorem hypotRad_isSome : ∀ {l : List (Option ℚ)}, (∀ x ∈ l, x ≠ none) → (hypotRad l).isSome := by
  intro l
  induction l with
  | nil => intro _; rfl
  | cons x rest ih =>
      intro h
      cases x with
      | none => exact absurd rfl (h none (List.mem_cons.mpr (Or.inl rfl)))
      | some q =>
          rw [hypotRad]
          have hr := ih (fun y hy => h y (List.mem_cons.mpr (Or.inr hy)))
          obtain ⟨v, hv⟩ := Option.isSome_iff_exists.mp hr
          rw [hv]
          rfl

theorem jsMinAux_isSome :
    ∀ (l : List (Option ℚ)) (x : Option ℚ), x ≠ none → (∀ y ∈ l, y ≠ none) →
      (jsMinAux x l).isSome := by
  intro l
  induction l with
  | nil =>
      intro x hx _
      rw [jsMinAux]
      exact Option.isSome_iff_ne_none.mpr hx
  | cons y rest ih =>
      intro x hx h
      rw [jsMinAux]
      have hy := h y (List.mem_cons.mpr (Or.inl rfl))
      have hr := ih y hy (fun z hz => h z (List.mem_cons.mpr (Or.inr hz)))
      obtain ⟨a, ha⟩ := Option.ne_none_iff_exists.mp hx
      obtain ⟨b, hb⟩ := Option.isSome_iff_exists.mp hr
      rw [← ha, hb]
      rfl

theorem jsMinAux_mem :
    ∀ (l : List (Option ℚ)) (x : Option ℚ) (m : ℚ),
      jsMinAux x l = some m → some m = x ∨ some m ∈ l := by
  intro l
  induction l with
  | nil => intro x m h; exact Or.inl h.symm
  | cons y rest ih =>
      intro x m h
      rw [jsMinAux] at h
      cases hx : x with
      | none => rw [hx] at h; simp [jsMin2] at h
      | some a =>
          cases hyr : jsMinAux y rest with
          | none => rw [hx, hyr] at h; simp [jsMin2] at h
          | some b =>
              rw [hx, hyr] at h
              simp only [jsMin2, Option.some.injEq] at h
              rcases min_choice a b with hmin | hmin
              · left
                rw [← h, hmin]
              · right
                have hb2 : some m = some b := by rw [← h, hmin]
                rcases ih y b hyr with h1 | h2
                · exact List.mem_cons.mpr (Or.inl (hb2.trans h1))
                · rw [hb2]
                  exact List.mem_cons.mpr (Or.inr h2)

theorem jsMin_mem {l : List (Option ℚ)} {m : ℚ} (h : jsMin l = some m) : some m ∈ l := by
  cases l with
  | nil => simp [jsMin] at h
  | cons x rest =>
      rw [jsMin] at h
      rcases jsMinAux_mem rest x m h with h1 | h2
      · exact List.mem_cons.mpr (Or.inl h1)
      · exact List.mem_cons.mpr (Or.inr h2)

theorem idxOfAux_nonneg {q : ℚ} : ∀ {l : List (Option ℚ)}, some q ∈ l → 0 ≤ idxOfAux q l := by
  intro l
  induction l with
  | nil => intro h; simp at h
  | cons x rest ih =>
      intro h
      rw [idxOfAux]
      by_cases hx : x = some q
      · rw [if_pos hx]
      · rw [if_neg hx]
        rcases List.mem_cons.mp h with h1 | h2
        · exact absurd h1.symm hx
        · have hr := ih h2
          simp only []
          by_cases hr1 : idxOfAux q rest = -1
          · rw [hr1] at hr; omega
          · rw [if_neg hr1]; omega

theorem jsIndexOf_min_nonneg (ds : List (Option ℚ)) (hne : ds ≠ [])
    (hsome : ∀ x ∈ ds, x ≠ none) : 0 ≤ jsIndexOf ds (jsMin ds) := by
  cases ds with
  | nil => exact absurd rfl hne
  | cons x rest =>
      have hx := hsome x (List.mem_cons.mpr (Or.inl rfl))
      have hmin : (jsMin (x :: rest)).isSome := by
        rw [jsMin]
        exact jsMinAux_isSome rest x hx (fun z hz => hsome z (List.mem_cons.mpr (Or.inr hz)))
      obtain ⟨m, hm⟩ := Option.isSome_iff_exists.mp hmin
      rw [hm, jsIndexOf]
      exact idxOfAux_nonneg (jsMin_mem hm)

theorem pointDists_initial_valid (data : List (List ℚ)) (k : ℕ) (x : List ℚ)
    (hx : x.length = (data.headD []).length)
    (hdim : ∀ v ∈ data, v.length = (data.headD []).length) :
    ∀ d ∈ pointDists (data.headD []).length x (initialCentroids data k), d ≠ none := by
  intro d hd
  rw [pointDists] at hd
  rcases List.mem_map.mp hd with ⟨c, hc, hceq⟩
  rw [initialCentroids] at hc
  rcases List.mem_map.mp hc with ⟨v, hv, hveq⟩
  have hvdata : v ∈ data := List.take_subset k data hv
  have hvlen : v.length = (data.headD []).length := hdim v hvdata
  rw [← hceq]
  apply Option.isSome_iff_ne_none.mp
  apply hypotRad_isSome
  intro y hy
  rcases List.mem_map.mp hy with ⟨i, hi, hyeq⟩
  have hilt : i < (data.headD []).length := List.mem_range.mp hi
  have hxg : ∃ a, x.get? i = some a :=
    ⟨x.get ⟨i, by omega⟩, List.get?_eq_get (by omega)⟩
  have hcg : ∃ a, centGet c i = some a := by
    rw [← hveq, centGet]
    have hvg : v.get? i = some (v.get ⟨i, by omega⟩) := List.get?_eq_get (by omega)
    rw [List.get?_eq_getElem?, List.getElem?_map, ← List.get?_eq_getElem?, hvg]
    exact ⟨v.get ⟨i, by omega⟩, rfl⟩
  obtain ⟨a, ha⟩ := hxg
  obtain ⟨b, hb⟩ := hcg
  rw [← hyeq, ha, hb]
  simp [Option.map₂]

theorem assignStep_initial_ne (data : List (List ℚ)) (k : ℕ)
    (hk1 : 1 ≤ k) (hkn : k ≤ data.length)
    (hdim : ∀ v ∈ data, v.length = (data.headD []).length) :
    assignStep data (initialCentroids data k) ≠ List.replicate data.length (-1) := by
  intro heq
  obtain ⟨x, data2, rfl⟩ : ∃ x data2, data = x :: data2 := by
    cases data with
    | nil => simp at hkn; omega
    | cons a b => exact ⟨a, b, rfl⟩
  rw [assignStep] at heq
  simp only [List.map_cons, List.length_cons, List.replicate_succ, List.cons.injEq] at heq
  have h0 := heq.1
  have hne : pointDists ((x :: data2).headD []).length x (initialCentroids (x :: data2) k)
      ≠ [] := by
    rw [pointDists]
    intro hmap
    have hlen := congrArg List.length hmap
    simp only [List.length_map, List.length_nil] at hlen
    rw [initialCentroids] at hlen
    simp only [List.length_map, List.length_take, List.length_cons] at hlen
    omega
  have hvalid := pointDists_initial_valid (x :: data2) k x
    (hdim x (List.mem_cons.mpr (Or.inl rfl))) hdim
  have hpos := jsIndexOf_min_nonneg _ hne hvalid
  rw [h0] at hpos
  omega

theorem kMeansLoop_exit_inv (data : List (List ℚ)) (k : ℕ) :
    ∀ (fuel : ℕ) (cents : List (List (Option ℚ))) (classes : List ℤ)
      (r : List ℤ × List (List (Option ℚ))),
      cents = updateStep data k classes →
      kMeansLoop data k fuel cents classes = some r →
      assignStep data r.2 = r.1 := by
  intro fuel
  induction fuel with
  | zero => intro cents classes r _ h; simp [kMeansLoop] at h
  | succ n ih =>
      intro cents classes r hinv h
      rw [kMeansLoop_succ] at h
      by_cases hc : assignStep data cents = classes
      · rw [if_pos hc] at h
        have hr := (Option.some.injEq _ _).mp h
        rw [← hr]
        show assignStep data (updateStep data k (assignStep data cents)) = assignStep data cents
        rw [hc, ← hinv]
        exact hc
      · rw [if_neg hc] at h
        exact ih _ _ r rfl h

/-- C7: whenever the `kMeans` loop converges within its fuel bound, the
returned assignment is a fixed point of the assignment step with respect
to the final centroids: re-running one nearest-centroid pass (ties to the
lowest centroid index) over the final centroids reproduces exactly the
returned classes. -/
theorem kMeans_converged_fixed_point (data : List (List ℚ)) (k fuel : ℕ)
    (st : List ℤ × List (List (Option ℚ)))
    (hk1 : 1 ≤ k) (hkn : k ≤ data.length)
    (hdim : ∀ v ∈ data, v.length = (data.headD []).length)
    (h : kMeansState data k fuel = some st) :
    assignStep data st.2 = st.1 := by
  rw [kMeansState] at h
  cases fuel with
  | zero => simp [kMeansLoop] at h
  | succ f =>
      rw [kMeansLoop_succ] at h
      by_cases hc : assignStep data (initialCentroids data k)
          = List.replicate data.length (-1)
      · exact absurd hc (assignStep_initial_ne data k hk1 hkn hdim)
      · rw [if_neg hc] at h
        exact kMeansLoop_exit_inv data k f _ _ st rfl h

theorem kMeans_converged_fixed_point_witness :
    assignStep [[0, 0], [0, 1], [1, 3], [2, 0]] [[some 1, some 0], [some (1/2), some 2]]
      = [0, 1, 1, 0] :=
  kMeans_converged_fixed_point [[0, 0], [0, 1], [1, 3], [2, 0]] 2 2
    ([0, 1, 1, 0], [[some 1, some 0], [some (1/2), some 2]])
    (by omega) (by simp)
    (by intro v hv
        rcases List.mem_cons.mp hv with h1 | h2
        · simp [h1]
        · rcases List.mem_cons.mp h2 with h3 | h4
          · simp [h3]
          · rcases List.mem_cons.mp h4 with h5 | h6
            · simp [h5]
            · rcases List.mem_cons.mp h6 with h7 | h8
              · simp [h7]
              · simp at h8)
    (by norm_num [kMeansState, kMeansLoop, assignStep, updateStep, initialCentroids,
      pointDists, hypotRad, jsMin, jsMinAux, jsMin2, jsIndexOf, idxOfAux, centGet, clusterSum,
      clusterSize, jsDivByNat, toFixed2, Option.map₂, List.range_succ, min_def])

theorem sumSq_aux {α : Type} [LinearOrderedField α] :
    ∀ (l : List α) (c : α), l.foldl (fun acc n => acc + n ^ 2) c = c + sumSq l := by
  intro l
  induction l with
  | nil => intro c; simp [sumSq]
  | cons v rest ih =>
      intro c
      rw [sumSq]
      simp only [List.foldl_cons]
      rw [ih, ih (0 + v ^ 2)]
      ring

theorem sumSq_cons {α : Type} [LinearOrderedField α] (v : α) (l : List α) :
    sumSq (v :: l) = v ^ 2 + sumSq l := by
  rw [sumSq]
  simp only [List.foldl_cons]
  rw [sumSq_aux]
  ring

theorem sumSq_nonneg {α : Type} [LinearOrderedField α] : ∀ (l : List α), 0 ≤ sumSq l := by
  intro l
  induction l with
  | nil => simp [sumSq]
  | cons v rest ih =>
      rw [sumSq_cons]
      positivity

theorem sumSq_eq_zero {α : Type} [LinearOrderedField α] :
    ∀ {l : List α}, sumSq l = 0 → ∀ x ∈ l, x = 0 := by
  intro l
  induction l with
  | nil => intro _ x hx; simp at hx
  | cons v rest ih =>
      intro h x hx
      rw [sumSq_cons] at h
      have h1 : v ^ 2 = 0 ∧ sumSq rest = 0 := by
        constructor <;> nlinarith [sumSq_nonneg rest, sq_nonneg v]
      rcases List.mem_cons.mp hx with hx1 | hx2
      · rw [hx1]; exact pow_eq_zero_iff (by norm_num) |>.mp h1.1
      · exact ih h1.2 x hx2

theorem dotProd_some {α : Type} [LinearOrderedField α] :
    ∀ (a b : List α), a.length = b.length → ∃ d, dotProd a b = some d := by
  intro a
  induction a with
  | nil => intro b _; exact ⟨0, rfl⟩
  | cons v va ih =>
      intro b hlen
      cases b with
      | nil => simp at hlen
      | cons w vb =>
          obtain ⟨d, hd⟩ := ih vb (by simpa using hlen)
          exact ⟨v * w + d, by rw [dotProd, hd]; rfl⟩

theorem dotProd_zero_left {α : Type} [LinearOrderedField α] :
    ∀ (a b : List α), a.length = b.length → (∀ x ∈ a, x = 0) → dotProd a b = some 0 := by
  intro a
  induction a with
  | nil => intro b _ _; rfl
  | cons v va ih =>
      intro b hlen hz
      cases b with
      | nil => simp at hlen
      | cons w vb =>
          rw [dotProd, ih vb (by simpa using hlen)
            (fun x hx => hz x (List.mem_cons.mpr (Or.inr hx)))]
          have hv : v = 0 := hz v (List.mem_cons.mpr (Or.inl rfl))
          simp [hv]

theorem dotProd_zero_right {α : Type} [LinearOrderedField α] :
    ∀ (a b : List α), a.length = b.length → (∀ x ∈ b, x = 0) → dotProd a b = some 0 := by
  intro a
  induction a with
  | nil => intro b _ _; rfl
  | cons v va ih =>
      intro b hlen hz
      cases b with
      | nil => simp at hlen
      | cons w vb =>
          rw [dotProd, ih vb (by simpa using hlen)
            (fun x hx => hz x (List.mem_cons.mpr (Or.inr hx)))]
          have hw : w = 0 := hz w (List.mem_cons.mpr (Or.inl rfl))
          simp [hw]

theorem dotProd_cauchy_schwarz {α : Type} [LinearOrderedField α] :
    ∀ (a b : List α) (d : α), dotProd a b = some d → d ^ 2 ≤ sumSq a * sumSq b := by
  intro a
  induction a with
  | nil =>
      intro b d hd
      rw [dotProd] at hd
      have hd0 : d = 0 := ((Option.some.injEq _ _).mp hd).symm
      rw [hd0]
      simp [sumSq]
  | cons v va ih =>
      intro b d hd
      cases b with
      | nil => rw [dotProd] at hd; exact absurd hd (by simp)
      | cons w vb =>
          rw [dotProd] at hd
          cases hvv : dotProd va vb with
          | none => rw [hvv] at hd; simp at hd
          | some d2 =>
              rw [hvv] at hd
              simp only [Option.map_some, Option.map_some', Option.some.injEq] at hd
              have hih := ih vb d2 hvv
              have hX := sumSq_nonneg va
              have hY := sumSq_nonneg vb
              rw [sumSq_cons, sumSq_cons, ← hd]
              rcases eq_or_lt_of_le hY with hY0 | hYpos
              · have hd2 : d2 = 0 := by nlinarith [sq_nonneg d2]
                rw [hd2, ← hY0]
                nlinarith [sq_nonneg w, sq_nonneg v, mul_nonneg hX (sq_nonneg w)]
              · nlinarith [sq_nonneg (v * sumSq vb - w * d2),
                  mul_nonneg (sq_nonneg w) (sub_nonneg.mpr hih),
                  mul_nonneg hX hY, sq_nonneg (v * w - d2), sq_nonneg (v * w + d2)]

/-- C5, amended: on equal-length vectors (over any linear ordered field),
`vectorAngle` returns `NaN` when either vector has zero magnitude — the
division is `0 / 0` — rather than failing with a `DegenerateVector`
error; on vectors of nonzero magnitude it returns
`acos(dot / √(|a|²·|b|²)) = acos(dot / (|a|·|b|))`, whose argument is in
range by the Cauchy–Schwarz inequality. -/
theorem vectorAngle_behavior {α : Type} [LinearOrderedField α] (a b : List α)
    (hlen : a.length = b.length) :
    ((sumSq a = 0 ∨ sumSq b = 0) → vectorAngle a b = AcosV.nan) ∧
    (sumSq a ≠ 0 → sumSq b ≠ 0 → ∃ d, dotProd a b = some d ∧
      d ^ 2 ≤ sumSq a * sumSq b ∧
      vectorAngle a b = AcosV.acv d (sumSq a * sumSq b)) := by
  constructor
  · intro hz
    rcases hz with hza | hzb
    · have hdot := dotProd_zero_left a b hlen (sumSq_eq_zero hza)
      rw [vectorAngle, hdot, hza]
      have hnb : ¬ sumSq b < 0 := not_lt.mpr (sumSq_nonneg b)
      simp [jsSqrt, sqrtMul, ratioDiv, jsAcos, hnb, lt_irrefl]
    · have hdot := dotProd_zero_right a b hlen (sumSq_eq_zero hzb)
      rw [vectorAngle, hdot, hzb]
      have hna : ¬ sumSq a < 0 := not_lt.mpr (sumSq_nonneg a)
      simp [jsSqrt, sqrtMul, ratioDiv, jsAcos, hna, lt_irrefl]
  · intro ha hb
    obtain ⟨d, hd⟩ := dotProd_some a b hlen
    have hcs := dotProd_cauchy_schwarz a b d hd
    have hapos : 0 < sumSq a := lt_of_le_of_ne (sumSq_nonneg a) (Ne.symm ha)
    have hbpos : 0 < sumSq b := lt_of_le_of_ne (sumSq_nonneg b) (Ne.symm hb)
    refine ⟨d, hd, hcs, ?_⟩
    rw [vectorAngle, hd]
    simp only [jsSqrt]
    rw [if_neg (not_lt.mpr (le_of_lt hapos)), if_neg (not_lt.mpr (le_of_lt hbpos))]
    show jsAcos (ratioDiv (some d) (SqrtV.rt (sumSq a * sumSq b))) = _
    rw [ratioDiv]
    rw [if_neg (ne_of_gt (mul_pos hapos hbpos))]
    rw [jsAcos, if_pos hcs]

theorem vectorAngle_behavior_witness :
    ∃ d, dotProd ([3, 4] : List ℚ) [4, 3] = some d ∧
      d ^ 2 ≤ sumSq ([3, 4] : List ℚ) * sumSq ([4, 3] : List ℚ) ∧
      vectorAngle ([3, 4] : List ℚ) [4, 3]
        = AcosV.acv d (sumSq ([3, 4] : List ℚ) * sumSq ([4, 3] : List ℚ)) :=
  (vectorAngle_behavior [3, 4] [4, 3] (by simp)).2
    (by norm_num [sumSq, List.foldl_cons, List.foldl_nil])
    (by norm_num [sumSq, List.foldl_cons, List.foldl_nil])

theorem take_set_of_le {α : Type} :
    ∀ (l : List α) (a n : ℕ) (r : α), n ≤ a → (l.set a r).take n = l.take n := by
  intro l
  induction l with
  | nil => intro a n r _; simp
  | cons x xs ih =>
      intro a n r hna
      cases a with
      | zero =>
          have hn : n = 0 := by omega
          rw [hn]
          simp
      | succ a2 =>
          rw [List.set_cons_succ]
          cases n with
          | zero => simp
          | succ n2 =>
              rw [List.take_succ_cons, List.take_succ_cons, ih a2 n2 r (by omega)]

theorem writeCell_take {st : Store} {a i : ℕ} {v : Option ℚ} {n : ℕ} (hna : n ≤ a) :
    (writeCell st a i v).take n = st.take n := by
  rw [writeCell]
  exact take_set_of_le st a n _ hna

theorem writeCell_length (st : Store) (a i : ℕ) (v : Option ℚ) :
    (writeCell st a i v).length = st.length := by
  rw [writeCell]
  exact List.length_set st a _

theorem foldl_inv {σ β : Type} (P : σ → Prop) (f : σ → β → σ)
    (hf : ∀ s x, P s → P (f s x)) :
    ∀ (l : List β) (st : σ), P st → P (l.foldl f st) := by
  intro l
  induction l with
  | nil => intro st h; exact h
  | cons x xs ih =>
      intro st h
      rw [List.foldl_cons]
      exact ih (f st x) (hf st x h)

theorem writeCell_pure {data : List (List ℚ)} {s : Store} {a i : ℕ} {v : Option ℚ}
    (ha : data.length ≤ a) (h : StorePure data s) : StorePure data (writeCell s a i v) := by
  constructor
  · rw [writeCell_length]; exact h.1
  · rw [writeCell_take ha]; exact h.2

theorem append_row_pure {data : List (List ℚ)} {s : Store} {row : List (Option ℚ)}
    (h : StorePure data s) : StorePure data (s ++ [row]) := by
  constructor
  · have h1 := h.1
    rw [List.length_append]
    omega
  · rw [List.take_append_of_le_length h.1]
    exact h.2

theorem hUpdate_pure (data : List (List ℚ)) (cents : List ℕ) (classes : List ℤ)
    (dim n k : ℕ) (s : Store) (h : StorePure data s) :
    StorePure data (hUpdate s cents classes dim n k).1 := by
  rw [hUpdate]
  have main : (fun (p : Store × List ℕ) => StorePure data p.1)
      ((List.range k).foldl (fun (p : Store × List ℕ) c =>
        let a := p.1.length
        let st1 := p.1 ++ [List.replicate dim (some 0)]
        let cents1 := p.2.set c a
        let st2 := (List.range n).foldl (fun st d =>
          if classes.getD d (-1) = (c : ℤ) then
            (List.range dim).foldl (fun st i =>
              writeCell st a i (Option.map₂ (fun x y => x + y) (readCell st a i)
                (readCell st d i))) st
          else st) st1
        let size := clusterSize classes c
        let st3 := (List.range dim).foldl (fun st i =>
          writeCell st a i (Option.map toFixed2 (jsDivByNat (readCell st a i) size))) st2
        (st3, cents1)) (s, cents)) := by
    apply foldl_inv (fun (p : Store × List ℕ) => StorePure data p.1) _ _ (List.range k) (s, cents) h
    intro p c hp
    have ha : data.length ≤ p.1.length := hp.1
    show StorePure data ((List.range dim).foldl _ _)
    refine foldl_inv (StorePure data) _ ?_ (List.range dim) _ ?_
    · intro s2 i hs2
      exact writeCell_pure ha hs2
    · refine foldl_inv (StorePure data) _ ?_ (List.range n) _ ?_
      · intro s2 d hs2
        by_cases hcl : classes.getD d (-1) = (c : ℤ)
        · rw [if_pos hcl]
          refine foldl_inv (StorePure data) _ ?_ (List.range dim) _ ?_
          · intro s3 i hs3
            exact writeCell_pure ha hs3
          · exact hs2
        · rw [if_neg hcl]
          exact hs2
      · exact append_row_pure hp
  exact main

theorem kMeansHeapLoop_pure (data : List (List ℚ)) (dim n k : ℕ) :
    ∀ (fuel : ℕ) (st : Store) (cents : List ℕ) (classes : List ℤ),
      StorePure data st → StorePure data (kMeansHeapLoop dim n k fuel st cents classes).1 := by
  intro fuel
  induction fuel with
  | zero => intro st cents classes h; exact h
  | succ f ih =>
      intro st cents classes h
      simp only [kMeansHeapLoop]
      by_cases hc : hAssign st dim n cents = classes
      · rw [if_pos hc]
        exact hUpdate_pure data cents _ dim n k st h
      · rw [if_neg hc]
        exact ih _ _ _ (hUpdate_pure data cents _ dim n k st h)

/-- C9: neither `kMeans` nor `kNearestNeighbors` has side effects on its
arguments.  In the heap model the data rows (addresses `0 … n-1`) hold
exactly the original vectors after `kMeans` finishes — or exhausts any
fuel bound — even though `slice` makes the initial centroids alias them:
every update-pass write targets a freshly allocated array (address
`≥ n`).  `kNearestNeighbors` performs no heap write at all (its
assignments only touch the fresh `{dist, label}` objects and the `reduce`
accumulator), so it returns the heap unchanged. -/
theorem kMeans_kNN_no_side_effects (data : List (List ℚ)) (k fuel : ℕ)
    (st : Store) (labels : List JsLabel) (point : List ℚ) (kq : ℕ) :
    (kMeansHeap data k fuel).1.take data.length = data.map (fun v => v.map some) ∧
    (kNearestNeighborsHeap st data labels point kq).2 = st := by
  constructor
  · have h0 : StorePure data (data.map (fun v => v.map some)) := by
      constructor
      · simp
      · have hl : (data.map (fun v => v.map some)).length = data.length := by simp
        rw [← hl, List.take_length]
    exact (kMeansHeapLoop_pure data (data.headD []).length data.length k fuel
      (data.map (fun v => v.map some)) ((List.range data.length).take k)
      (List.replicate data.length (-1)) h0).2
  · rfl

theorem le_foldr_max {a : ℕ} : ∀ {L : List ℕ}, a ∈ L → a ≤ L.foldr max 0 := by
  intro L
  induction L with
  | nil => intro h; simp at h
  | cons b L2 ih =>
      intro h
      rw [List.foldr_cons]
      rcases List.mem_cons.mp h with h1 | h2
      · rw [h1]; exact le_max_left _ _
      · exact le_trans (ih h2) (le_max_right _ _)

theorem foldr_max_le {m : ℕ} : ∀ {L : List ℕ}, (∀ a ∈ L, a ≤ m) → L.foldr max 0 ≤ m := by
  intro L
  induction L with
  | nil => intro _; simp
  | cons b L2 ih =>
      intro h
      rw [List.foldr_cons]
      exact max_le (h b (List.mem_cons.mpr (Or.inl rfl)))
        (ih (fun a ha => h a (List.mem_cons.mpr (Or.inr ha))))

theorem foldr_max_mem : ∀ {L : List ℕ}, L.foldr max 0 ∈ L ∨ L.foldr max 0 = 0 := by
  intro L
  induction L with
  | nil => exact Or.inr rfl
  | cons b L2 ih =>
      rw [List.foldr_cons]
      rcases max_choice b (L2.foldr max 0) with h1 | h1
      · rw [h1]; exact Or.inl (List.mem_cons.mpr (Or.inl rfl))
      · rw [h1]
        rcases ih with h2 | h2
        · exact Or.inl (List.mem_cons.mpr (Or.inr h2))
        · exact Or.inr h2

theorem count_le_specMaxCount (l : List JsLabel) (x : JsLabel) :
    l.count x ≤ specMaxCount l := by
  by_cases hx : x ∈ l
  · exact le_foldr_max (List.mem_map.mpr ⟨x, hx, rfl⟩)
  · rw [List.count_eq_zero.mpr hx]
    omega

theorem specMaxCount_exists {l : List JsLabel} (hne : l ≠ []) :
    ∃ x ∈ l, l.count x = specMaxCount l := by
  rcases @foldr_max_mem (l.map (fun x => l.count x)) with h1 | h1
  · rcases List.mem_map.mp h1 with ⟨x, hx, hc⟩
    exact ⟨x, hx, hc⟩
  · exfalso
    obtain ⟨y, rest, rfl⟩ : ∃ y rest, l = y :: rest := by
      cases l with
      | nil => exact absurd rfl hne
      | cons y rest => exact ⟨y, rest, rfl⟩
    have h2 : 1 ≤ (y :: rest).count y := List.one_le_count_iff.mpr (List.mem_cons.mpr (Or.inl rfl))
    have h3 := count_le_specMaxCount (y :: rest) y
    rw [specMaxCount] at h3
    omega

theorem specMaxCount_append (P : List JsLabel) (x : JsLabel) :
    specMaxCount (P ++ [x]) = max (specMaxCount P) ((P ++ [x]).count x) := by
  apply le_antisymm
  · apply foldr_max_le
    intro a ha
    rcases List.mem_map.mp ha with ⟨y, hy, hc⟩
    by_cases hyx : y = x
    · rw [← hc, hyx]
      exact le_max_right _ _
    · rw [← hc, List.count_append]
      have h1 : ([x].count y) = 0 := by
        rw [List.count_eq_zero]
        intro hmem
        exact hyx (List.mem_singleton.mp hmem)
      have h2 := count_le_specMaxCount P y
      have h3 := le_max_left (specMaxCount P) ((P ++ [x]).count x)
      omega
  · apply max_le
    · by_cases hP : P = []
      · rw [hP]; simp [specMaxCount]
      · obtain ⟨y, hy, hyc⟩ := specMaxCount_exists hP
        have h1 : P.count y ≤ (P ++ [x]).count y := by
          rw [List.count_append]; omega
        have h2 := count_le_specMaxCount (P ++ [x]) y
        omega
    · exact count_le_specMaxCount (P ++ [x]) x

theorem firstReachAux_reaches :
    ∀ (l seen : List JsLabel) (m : ℕ) (x : JsLabel),
      (∀ y, (seen ++ l).count y < m) → ((seen ++ l) ++ [x]).count x = m →
      firstReachAux m seen (l ++ [x]) = some x := by
  intro l
  induction l with
  | nil =>
      intro seen m x hall hx
      simp only [List.nil_append, List.append_nil] at hx ⊢
      rw [firstReachAux, if_pos hx]
  | cons z rest ih =>
      intro seen m x hall hx
      have hcons : (z :: rest) ++ [x] = z :: (rest ++ [x]) := rfl
      rw [hcons, firstReachAux]
      have hassoc : (seen ++ [z]) ++ rest = seen ++ (z :: rest) := by
        rw [List.append_assoc]
        rfl
      have hz : (seen ++ [z]).count z ≠ m := by
        have h1 : (seen ++ [z]).count z ≤ (seen ++ (z :: rest)).count z := by
          simp only [List.count_append, List.count_cons_self, List.count_nil,
            List.count_cons, List.count_singleton]
          omega
        have h3 := hall z
        omega
      rw [if_neg hz]
      apply ih (seen ++ [z]) m x
      · intro y
        rw [hassoc]
        exact hall y
      · rw [hassoc]
        exact hx

theorem firstReachAux_extend :
    ∀ (l seen : List JsLabel) (m : ℕ) (r : JsLabel) (l2 : List JsLabel),
      firstReachAux m seen l = some r → firstReachAux m seen (l ++ l2) = some r := by
  intro l
  induction l with
  | nil => intro seen m r l2 h; rw [firstReachAux] at h; exact absurd h (by simp)
  | cons z rest ih =>
      intro seen m r l2 h
      rw [firstReachAux] at h
      have hcons : (z :: rest) ++ l2 = z :: (rest ++ l2) := rfl
      rw [hcons, firstReachAux]
      by_cases hc : (seen ++ [z]).count z = m
      · rw [if_pos hc] at h ⊢
        exact h
      · rw [if_neg hc] at h ⊢
        exact ih (seen ++ [z]) m r l2 h

theorem firstReachAux_isSome :
    ∀ (l seen : List JsLabel) (m : ℕ) (x : JsLabel), x ∈ l → (seen ++ l).count x = m →
      (firstReachAux m seen l).isSome := by
  intro l
  induction l with
  | nil => intro seen m x hx _; simp at hx
  | cons z rest ih =>
      intro seen m x hx hc
      rw [firstReachAux]
      by_cases hz : (seen ++ [z]).count z = m
      · rw [if_pos hz]; rfl
      · rw [if_neg hz]
        have hassoc : (seen ++ [z]) ++ rest = seen ++ (z :: rest) := by
          rw [List.append_assoc]; rfl
      
        by_cases hxr : x ∈ rest
        · apply ih (seen ++ [z]) m x hxr
          rw [hassoc]
          exact hc
        · have hxz : x = z := by
            rcases List.mem_cons.mp hx with h1 | h2
            · exact h1
            · exact absurd h2 hxr
          subst hxz
          exfalso
          apply hz
          have h1 : rest.count x = 0 := List.count_eq_zero.mpr hxr
          simp only [List.count_append, List.count_cons_self, List.count_nil] at hc ⊢
          omega

theorem contains_keys_iff_lookup (l : List (JsKey × ℕ)) (k : JsKey) :
    (l.map (fun p => p.1)).contains k = true ↔ l.lookup k ≠ none := by
  induction l with
  | nil => simp [List.lookup]
  | cons p rest ih =>
      rw [List.map_cons, List.lookup_cons]
      cases hbeq : (k == p.1) with
      | true => simp [List.contains_cons, hbeq]
      | false =>
          simp only [List.contains_cons, hbeq, Bool.false_or]
          exact ih

theorem mapped_lookup_self :
    ∀ (l : List (JsKey × ℕ)) (k : JsKey) (v : ℕ),
      (l.map (fun p => p.1)).contains k = true →
      (l.map (fun p => if p.1 = k then (k, v) else p)).lookup k = some v := by
  intro l
  induction l with
  | nil => intro k v hc; simp at hc
  | cons p rest ih =>
      intro k v hc
      rw [List.map_cons]
      by_cases hp : p.1 = k
      · rw [if_pos hp, List.lookup_cons]
        have hbeq : (k == k) = true := by simp
        rw [hbeq]
      · rw [if_neg hp, List.lookup_cons]
        have hbeq : (k == p.1) = false := by
          simp only [beq_eq_false_iff_ne, ne_eq]
          intro h
          exact hp h.symm
        rw [hbeq]
        apply ih
        rw [List.map_cons, List.contains_cons, hbeq] at hc
        simpa using hc

theorem mapped_lookup_other :
    ∀ (l : List (JsKey × ℕ)) (k : JsKey) (v : ℕ) (k2 : JsKey), k2 ≠ k →
      (l.map (fun p => if p.1 = k then (k, v) else p)).lookup k2 = l.lookup k2 := by
  intro l
  induction l with
  | nil => intro k v k2 _; rfl
  | cons p rest ih =>
      intro k v k2 hne
      rw [List.map_cons]
      by_cases hp : p.1 = k
      · rw [if_pos hp, List.lookup_cons, List.lookup_cons]
        have hb1 : (k2 == k) = false := by simpa using hne
        have hb2 : (k2 == p.1) = false := by
          rw [hp]
          simpa using hne
        rw [hb1, hb2]
        exact ih k v k2 hne
      · rw [if_neg hp, List.lookup_cons, List.lookup_cons]
        cases hb : (k2 == p.1) with
        | true => rfl
        | false => exact ih k v k2 hne

theorem append_lookup_self :
    ∀ (l : List (JsKey × ℕ)) (k : JsKey) (v : ℕ),
      (l.map (fun p => p.1)).contains k = false →
      (l ++ [(k, v)]).lookup k = some v := by
  intro l
  induction l with
  | nil =>
      intro k v _
      rw [List.nil_append, List.lookup_cons]
      have hbeq : (k == k) = true := by simp
      rw [hbeq]
  | cons p rest ih =>
      intro k v hc
      rw [List.map_cons, List.contains_cons] at hc
      have hb1 : (k == p.1) = false := by
        rcases Bool.or_eq_false_iff.mp hc with ⟨ha, _⟩
        exact ha
      have hb2 : (rest.map (fun p => p.1)).contains k = false :=
        (Bool.or_eq_false_iff.mp hc).2
      rw [List.cons_append, List.lookup_cons, hb1]
      exact ih k v hb2

theorem append_lookup_other :
    ∀ (l : List (JsKey × ℕ)) (k : JsKey) (v : ℕ) (k2 : JsKey), k2 ≠ k →
      (l ++ [(k, v)]).lookup k2 = l.lookup k2 := by
  intro l
  induction l with
  | nil =>
      intro k v k2 hne
      rw [List.nil_append, List.lookup_cons]
      have hbeq : (k2 == k) = false := by simpa using hne
      rw [hbeq]
  | cons p rest ih =>
      intro k v k2 hne
      rw [List.cons_append, List.lookup_cons, List.lookup_cons]
      cases hb : (k2 == p.1) with
      | true => rfl
      | false => exact ih k v k2 hne

theorem lookup_setKey_self (l : List (JsKey × ℕ)) (k : JsKey) (v : ℕ) :
    (setKey l k v).lookup k = some v := by
  rw [setKey]
  by_cases hc : (l.map (fun p => p.1)).contains k = true
  · rw [if_pos hc]
    exact mapped_lookup_self l k v hc
  · rw [if_neg hc]
    apply append_lookup_self l k v
    revert hc
    cases (l.map (fun p => p.1)).contains k <;> simp

theorem lookup_setKey_other (l : List (JsKey × ℕ)) (k : JsKey) (v : ℕ) (k2 : JsKey)
    (hne : k2 ≠ k) : (setKey l k v).lookup k2 = l.lookup k2 := by
  rw [setKey]
  by_cases hc : (l.map (fun p => p.1)).contains k = true
  · rw [if_pos hc]
    exact mapped_lookup_other l k v k2 hne
  · rw [if_neg hc]
    exact append_lookup_other l k v k2 hne

theorem tallyStep_char (acc : KNNAcc) (lab : JsLabel) (n : ℕ)
    (hn : (if containsStrict acc.classCounts lab
           then ((acc.classCounts.lookup (labelKey lab)).getD 0) + 1 else 1) = n) :
    tallyStep acc lab
      = if acc.topClassCount < n
        then ⟨setKey acc.classCounts (labelKey lab) n, lab, n⟩
        else ⟨setKey acc.classCounts (labelKey lab) n, acc.topClass, acc.topClassCount⟩ := by
  subst hn
  rfl

theorem specMaxCount_nil : specMaxCount [] = 0 := rfl

theorem specMaxCount_pos {P : List JsLabel} (hne : P ≠ []) : 1 ≤ specMaxCount P := by
  obtain ⟨y, rest, rfl⟩ : ∃ y rest, P = y :: rest := by
    cases P with
    | nil => exact absurd rfl hne
    | cons y rest => exact ⟨y, rest, rfl⟩
  have h1 : 1 ≤ (y :: rest).count y :=
    List.one_le_count_iff.mpr (List.mem_cons.mpr (Or.inl rfl))
  have h2 := count_le_specMaxCount (y :: rest) y
  omega

theorem count_append_self (P : List JsLabel) (x : JsLabel) :
    (P ++ [x]).count x = P.count x + 1 := by
  rw [List.count_append]
  simp

theorem count_append_other (P : List JsLabel) {x y : JsLabel} (hne : y ≠ x) :
    (P ++ [x]).count y = P.count y := by
  rw [List.count_append]
  have h1 : ([x] : List JsLabel).count y = 0 := by
    rw [List.count_eq_zero]
    intro hmem
    exact hne (List.mem_singleton.mp hmem)
  omega

theorem tallyStep_str_invariant (P : List JsLabel) (acc : KNNAcc) (s : String)
    (h1 : ∀ t : String, acc.classCounts.lookup (JsKey.ofStr t)
        = if P.count (JsLabel.str t) = 0 then none else some (P.count (JsLabel.str t)))
    (h2 : acc.topClassCount = specMaxCount P)
    (h3 : P ≠ [] → firstReachAux (specMaxCount P) [] P = some acc.topClass) :
    (∀ t : String, (tallyStep acc (JsLabel.str s)).classCounts.lookup (JsKey.ofStr t)
        = if (P ++ [JsLabel.str s]).count (JsLabel.str t) = 0 then none
          else some ((P ++ [JsLabel.str s]).count (JsLabel.str t))) ∧
    (tallyStep acc (JsLabel.str s)).topClassCount = specMaxCount (P ++ [JsLabel.str s]) ∧
    firstReachAux (specMaxCount (P ++ [JsLabel.str s])) [] (P ++ [JsLabel.str s])
      = some ((tallyStep acc (JsLabel.str s)).topClass) := by
  have hkey : labelKey (JsLabel.str s) = JsKey.ofStr s := rfl
  have hchar : tallyStep acc (JsLabel.str s)
      = if acc.topClassCount < P.count (JsLabel.str s) + 1
        then ⟨setKey acc.classCounts (JsKey.ofStr s) (P.count (JsLabel.str s) + 1),
              JsLabel.str s, P.count (JsLabel.str s) + 1⟩
        else ⟨setKey acc.classCounts (JsKey.ofStr s) (P.count (JsLabel.str s) + 1),
              acc.topClass, acc.topClassCount⟩ := by
    rw [← hkey]
    apply tallyStep_char
    rw [hkey]
    by_cases hz : P.count (JsLabel.str s) = 0
    · have hlook : acc.classCounts.lookup (JsKey.ofStr s) = none := by
        rw [h1 s, if_pos hz]
      have hcont : containsStrict acc.classCounts (JsLabel.str s) = false := by
        rw [containsStrict]
        cases hb : (acc.classCounts.map (fun p => p.1)).contains (JsKey.ofStr s) with
        | false => rfl
        | true => exact absurd hlook ((contains_keys_iff_lookup _ _).mp hb)
      rw [hcont]
      simp [hz]
    · have hlook : acc.classCounts.lookup (JsKey.ofStr s) = some (P.count (JsLabel.str s)) := by
        rw [h1 s, if_neg hz]
      have hcont : containsStrict acc.classCounts (JsLabel.str s) = true := by
        rw [containsStrict]
        apply (contains_keys_iff_lookup _ _).mpr
        rw [hlook]
        simp
      rw [hcont, hlook]
      simp
  have hcnew : (P ++ [JsLabel.str s]).count (JsLabel.str s) = P.count (JsLabel.str s) + 1 :=
    count_append_self P (JsLabel.str s)
  have hmaxapp : specMaxCount (P ++ [JsLabel.str s])
      = max (specMaxCount P) (P.count (JsLabel.str s) + 1) := by
    rw [specMaxCount_append, hcnew]
  have hcounts : ∀ t : String,
      (setKey acc.classCounts (JsKey.ofStr s) (P.count (JsLabel.str s) + 1)).lookup
          (JsKey.ofStr t)
        = if (P ++ [JsLabel.str s]).count (JsLabel.str t) = 0 then none
          else some ((P ++ [JsLabel.str s]).count (JsLabel.str t)) := by
    intro t
    by_cases hts : t = s
    · subst hts
      rw [lookup_setKey_self, hcnew, if_neg (by omega)]
    · have hkne : JsKey.ofStr t ≠ JsKey.ofStr s := by
        intro h
        exact hts (JsKey.ofStr.injEq t s ▸ h)
      have hlne : JsLabel.str t ≠ JsLabel.str s := by
        intro h
        exact hts (JsLabel.str.injEq t s ▸ h)
      rw [lookup_setKey_other _ _ _ _ hkne, count_append_other P hlne]
      exact h1 t
  by_cases hlt : acc.topClassCount < P.count (JsLabel.str s) + 1
  · rw [hchar, if_pos hlt]
    refine ⟨hcounts, ?_, ?_⟩
    · show P.count (JsLabel.str s) + 1 = specMaxCount (P ++ [JsLabel.str s])
      rw [hmaxapp, h2] at *
      omega
    · have hspec : specMaxCount (P ++ [JsLabel.str s]) = P.count (JsLabel.str s) + 1 := by
        rw [hmaxapp]
        rw [h2] at hlt
        omega
      rw [hspec]
      show firstReachAux (P.count (JsLabel.str s) + 1) [] (P ++ [JsLabel.str s])
        = some (JsLabel.str s)
      apply firstReachAux_reaches
      · intro y
        rw [List.nil_append]
        have := count_le_specMaxCount P y
        rw [h2] at hlt
        omega
      · rw [List.nil_append, hcnew]
  · rw [hchar, if_neg hlt]
    have hPne : P ≠ [] := by
      intro hP
      rw [hP, specMaxCount_nil] at h2
      rw [h2] at hlt
      omega
    have hspec : specMaxCount (P ++ [JsLabel.str s]) = specMaxCount P := by
      rw [hmaxapp]
      rw [h2] at hlt
      omega
    refine ⟨hcounts, ?_, ?_⟩
    · show acc.topClassCount = specMaxCount (P ++ [JsLabel.str s])
      rw [hspec, h2]
    · rw [hspec]
      show firstReachAux (specMaxCount P) [] (P ++ [JsLabel.str s]) = some acc.topClass
      exact firstReachAux_extend P [] (specMaxCount P) acc.topClass [JsLabel.str s] (h3 hPne)

theorem tally_fold_str_invariant :
    ∀ (rest P : List JsLabel) (acc : KNNAcc),
      (∀ x ∈ rest, ∃ s, x = JsLabel.str s) →
      (∀ t : String, acc.classCounts.lookup (JsKey.ofStr t)
          = if P.count (JsLabel.str t) = 0 then none
            else some (P.count (JsLabel.str t))) →
      acc.topClassCount = specMaxCount P →
      (P ≠ [] → firstReachAux (specMaxCount P) [] P = some acc.topClass) →
      (P ++ rest ≠ [] → firstReachAux (specMaxCount (P ++ rest)) [] (P ++ rest)
        = some ((rest.foldl tallyStep acc).topClass)) := by
  intro rest
  induction rest with
  | nil =>
      intro P acc _ _ _ h3
      rw [List.append_nil]
      exact h3
  | cons x rest2 ih =>
      intro P acc hstr h1 h2 h3
      obtain ⟨s, rfl⟩ := hstr x (List.mem_cons.mpr (Or.inl rfl))
      rw [List.foldl_cons]
      have hstep := tallyStep_str_invariant P acc s h1 h2 h3
      have happ : P ++ (JsLabel.str s :: rest2) = (P ++ [JsLabel.str s]) ++ rest2 := by
        rw [List.append_assoc]
        rfl
      rw [happ]
      exact ih (P ++ [JsLabel.str s]) (tallyStep acc (JsLabel.str s))
        (fun y hy => hstr y (List.mem_cons.mpr (Or.inr hy)))
        hstep.1 hstep.2.1 (fun _ => hstep.2.2)

/-- C1, amended: with string labels (usable as object keys) the classifier
returns exactly the spec's majority vote over the `k` nearest labels:
the label with the highest occurrence count, ties resolved in favour of
the label that first reaches the maximal count in distance-sorted order
(`specVote`). -/
theorem kNearestNeighbors_string_majority (data : List (List ℚ)) (labels : List JsLabel)
    (point : List ℚ) (k : ℕ) (hne : data ≠ []) (hlen : labels.length = data.length)
    (hdim : ∀ v ∈ data, v.length = point.length)
    (hk1 : 1 ≤ k) (hkn : k ≤ data.length)
    (hstr : ∀ l ∈ labels, ∃ s, l = JsLabel.str s) :
    kNearestNeighbors data labels point k = specVote (takenLabels data labels point k) := by
  obtain ⟨p, rest, hsp⟩ : ∃ p rest, sortedPairs data labels point = p :: rest := by
    rcases hl : sortedPairs data labels point with _ | ⟨p, rest⟩
    · exfalso
      have hlth := sortedPairs_length data labels point
      rw [hl] at hlth
      simp only [List.length_nil] at hlth
      exact hne (List.length_eq_zero.mp hlth.symm)
    · exact ⟨p, rest, rfl⟩
  obtain ⟨k2, rfl⟩ : ∃ k2, k = k2 + 1 := ⟨k - 1, by omega⟩
  have hkn2 : kNearest data labels point (k2 + 1) = p :: rest.take k2 := by
    rw [kNearest, hsp, List.take_succ_cons]
  have htaken : takenLabels data labels point (k2 + 1)
      = p.2 :: (rest.take k2).map (fun q => q.2) := by
    rw [takenLabels, hkn2]
    rfl
  have hstr2 : ∀ x ∈ p.2 :: (rest.take k2).map (fun q => q.2), ∃ s, x = JsLabel.str s := by
    intro x hx
    rcases List.mem_cons.mp hx with h1 | h2
    · have hpm : p ∈ sortedPairs data labels point := by
        rw [hsp]
        exact List.mem_cons.mpr (Or.inl rfl)
      rw [h1]
      exact hstr p.2 (sortedPairs_label_mem hlen hpm)
    · rcases List.mem_map.mp h2 with ⟨q, hq, hqeq⟩
      have hqm : q ∈ sortedPairs data labels point := by
        rw [hsp]
        exact List.mem_cons.mpr (Or.inr (List.take_subset k2 rest hq))
      rw [← hqeq]
      exact hstr q.2 (sortedPairs_label_mem hlen hqm)
  simp only [kNearestNeighbors, hkn2]
  have hfold : (p :: rest.take k2).foldl (fun acc q => tallyStep acc q.2)
        { classCounts := [], topClass := p.2, topClassCount := 0 }
      = ((p :: rest.take k2).map (fun q => q.2)).foldl tallyStep
        { classCounts := [], topClass := p.2, topClassCount := 0 } := by
    rw [List.foldl_map]
  have hmain := tally_fold_str_invariant (p.2 :: (rest.take k2).map (fun q => q.2)) []
    { classCounts := [], topClass := p.2, topClassCount := 0 }
    hstr2
    (by intro t; simp [List.lookup])
    rfl
    (by intro h; exact absurd rfl h)
  rw [List.nil_append] at hmain
  have hres := hmain (by simp)
  rw [specVote, specFirstToReach, htaken, hres]
  rw [hfold]
  rfl

theorem kNearestNeighbors_string_majority_witness :
    kNearestNeighbors [[0], [1], [2]] [JsLabel.str "a", JsLabel.str "b", JsLabel.str "b"] [0] 3
      = specVote (takenLabels [[0], [1], [2]]
          [JsLabel.str "a", JsLabel.str "b", JsLabel.str "b"] [0] 3) :=
  kNearestNeighbors_string_majority [[0], [1], [2]]
    [JsLabel.str "a", JsLabel.str "b", JsLabel.str "b"] [0] 3
    (by simp) (by simp)
    (by intro v hv
        rcases List.mem_cons.mp hv with h1 | h2
        · simp [h1]
        · rcases List.mem_cons.mp h2 with h3 | h4
          · simp [h3]
          · rcases List.mem_cons.mp h4 with h5 | h6
            · simp [h5]
            · simp at h6)
    (by omega) (by simp)
    (by intro l hl
        rcases List.mem_cons.mp hl with h1 | h2
        · exact ⟨"a", h1⟩
        · rcases List.mem_cons.mp h2 with h3 | h4
          · exact ⟨"b", h3⟩
          · rcases List.mem_cons.mp h4 with h5 | h6
            · exact ⟨"b", h5⟩
            · simp at h6)
